import Mathlib

/-!
# Verification of cargo-lock2rpmprovides (source: src/main.rs)

A shallow embedding of the program's two normalization routines and of its
main loop, with strings modelled as `List Char` (Rust's `replace_range`
byte indices coincide with character positions here because every edit
replaces a one-byte `'-'` with a one-byte `'_'`).

* `normalize_version` embeds the inline version-normalization loop of
  `main` (src/main.rs lines 174-191).
* `replaceL`, `lic_replace`, `lic_wrapped`, `normalize_license` embed the
  license normalization of `do_license_check` (src/main.rs lines 70-89).
* `do_license_check`, `collectLicenses`, `main_run` embed the effectful
  skeleton, with the file system reified as a map from per-package vendor
  directories to manifest states, stdout/stderr as lists of lines, and a
  Rust panic as `Except.error`.  Debug tracing (`-d`) only adds extra
  stderr lines and is not modelled; the embedding is the non-debug run.
-/

/-! ## Version normalizer (src/main.rs lines 176-191) -/

/-- Embeds `pkg.version.char_indices().rev().filter_map(|(i, c)| if c == '-'
{ Some(i) } else { None }).collect()`: the indices of the hyphens of `s`,
in decreasing order. -/
def hyphens (s : List Char) : List Nat :=
  (s.enum.reverse).filterMap fun p => if p.2 = '-' then some p.1 else none

/-- Embeds the version normalization of `main`: collect the hyphen indices
in decreasing order, `pop()` the last collected index (the leftmost
hyphen), then `replace_range(i..i+1, "_")` at each remaining index. -/
def normalize_version (s : List Char) : List Char :=
  ((hyphens s).dropLast).foldl (fun v i => v.set i '_') s

/-- Rewrites every hyphen to an underscore (helper for the claim-side
description of the version normalizer). -/
def replaceAllHyphens (s : List Char) : List Char :=
  s.map fun c => if c = '-' then '_' else c

/-- Claim-side description of the version normalizer, following the words
"rewrites every internal hyphen other than the first (leftmost) one into
an underscore, leaving that first hyphen unchanged": scan to the first
hyphen, keep it, and rewrite every later hyphen. -/
def normalize_version_spec : List Char → List Char
  | [] => []
  | c :: rest =>
    if c = '-' then c :: replaceAllHyphens rest else c :: normalize_version_spec rest

/-- Ascending variant of `hyphens`, starting the enumeration at `n`. -/
def ascHyphensFrom (n : Nat) (s : List Char) : List Nat :=
  (List.enumFrom n s).filterMap fun p => if p.2 = '-' then some p.1 else none

theorem ascHyphensFrom_nil (n : Nat) : ascHyphensFrom n [] = [] := rfl

theorem ascHyphensFrom_cons (n : Nat) (c : Char) (rest : List Char) :
    ascHyphensFrom n (c :: rest) =
      (if c = '-' then [n] else []) ++ ascHyphensFrom (n + 1) rest := by
  by_cases h : c = '-' <;> simp [ascHyphensFrom, List.filterMap_cons, h]

theorem mem_ascHyphensFrom {j n : Nat} {s : List Char} :
    j ∈ ascHyphensFrom n s ↔ n ≤ j ∧ s[j - n]? = some '-' := by
  induction s generalizing n with
  | nil => simp [ascHyphensFrom_nil]
  | cons c rest ih =>
    rw [ascHyphensFrom_cons]
    simp only [List.mem_append, ih]
    constructor
    · rintro (hj | ⟨hle, hget⟩)
      · have hc : c = '-' ∧ j = n := by
          by_cases h : c = '-'
          · simp [h] at hj
            simp [h, hj]
          · simp [h] at hj
        refine ⟨le_of_eq hc.2.symm, ?_⟩
        simp [hc.2, hc.1]
      · refine ⟨by omega, ?_⟩
        have : j - n = (j - (n + 1)) + 1 := by omega
        rw [this]
        simpa using hget
    · rintro ⟨hle, hget⟩
      rcases eq_or_lt_of_le hle with heq | hlt
      · left
        have : j - n = 0 := by omega
        rw [this] at hget
        simp at hget
        simp [hget, heq.symm]
      · right
        refine ⟨by omega, ?_⟩
        have : j - n = (j - (n + 1)) + 1 := by omega
        rw [this] at hget
        simpa using hget

theorem pairwise_lt_ascHyphensFrom (n : Nat) (s : List Char) :
    List.Pairwise (· < ·) (ascHyphensFrom n s) := by
  induction s generalizing n with
  | nil => simp [ascHyphensFrom_nil]
  | cons c rest ih =>
    rw [ascHyphensFrom_cons]
    rw [List.pairwise_append]
    refine ⟨?_, ih (n + 1), ?_⟩
    · by_cases h : c = '-' <;> simp [h]
    · intro a ha b hb
      have hb' := mem_ascHyphensFrom.mp hb
      have ha' : a = n := by
        by_cases h : c = '-'
        · simp [h] at ha
          exact ha
        · simp [h] at ha
      omega

theorem hyphens_eq_reverse_asc (s : List Char) :
    hyphens s = (ascHyphensFrom 0 s).reverse := by
  unfold hyphens ascHyphensFrom
  rw [← List.filterMap_reverse]
  rfl

theorem mem_tail_of_pairwise_lt {l : List Nat} (hp : List.Pairwise (· < ·) l)
    {x : Nat} : x ∈ l.tail ↔ x ∈ l ∧ ∃ y ∈ l, y < x := by
  cases l with
  | nil => simp
  | cons a t =>
    rw [List.pairwise_cons] at hp
    constructor
    · intro hx
      exact ⟨List.mem_cons_of_mem _ hx, a, List.mem_cons_self _ _, hp.1 x hx⟩
    · rintro ⟨hx, y, hy, hyx⟩
      rcases List.mem_cons.mp hx with rfl | hxt
      · rcases List.mem_cons.mp hy with rfl | hyt
        · omega
        · have := hp.1 y hyt
          omega
      · exact hxt

theorem mem_dropLast_hyphens {s : List Char} {j : Nat} :
    j ∈ (hyphens s).dropLast ↔
      s[j]? = some '-' ∧ ∃ k, k < j ∧ s[k]? = some '-' := by
  rw [hyphens_eq_reverse_asc, List.dropLast_reverse, List.mem_reverse,
    mem_tail_of_pairwise_lt (pairwise_lt_ascHyphensFrom 0 s)]
  constructor
  · rintro ⟨hj, y, hy, hyx⟩
    have hj' := mem_ascHyphensFrom.mp hj
    have hy' := mem_ascHyphensFrom.mp hy
    simp only [Nat.sub_zero] at hj' hy'
    exact ⟨hj'.2, y, hyx, hy'.2⟩
  · rintro ⟨hj, k, hk, hkh⟩
    refine ⟨mem_ascHyphensFrom.mpr ⟨Nat.zero_le _, by simpa using hj⟩,
      k, mem_ascHyphensFrom.mpr ⟨Nat.zero_le _, by simpa using hkh⟩, hk⟩

theorem foldl_set_getElem? (l : List Nat) (s : List Char) (j : Nat) :
    (l.foldl (fun v i => v.set i '_') s)[j]? =
      if j ∈ l ∧ j < s.length then some '_' else s[j]? := by
  induction l generalizing s with
  | nil => simp
  | cons i t ih =>
    rw [List.foldl_cons, ih, List.length_set]
    rcases Nat.lt_or_ge j s.length with hjl | hjl
    · by_cases hjt : j ∈ t
      · simp [hjt, hjl]
      · by_cases hij : i = j
        · subst hij
          simp [hjt, hjl, List.getElem?_set]
        · rw [List.getElem?_set, if_neg hij]
          simp [hjt, List.mem_cons, Ne.symm hij]
    · have h1 : s[j]? = none := List.getElem?_eq_none hjl
      have h2 : (s.set i '_')[j]? = none := by
        rw [List.getElem?_set]
        by_cases hij : i = j
        · subst hij
          simp [Nat.not_lt.mpr hjl]
        · simp [hij, h1]
      rw [h2, h1]
      simp [Nat.not_lt.mpr hjl]

theorem normalize_version_getElem? (s : List Char) (j : Nat) :
    (normalize_version s)[j]? =
      if s[j]? = some '-' ∧ ∃ k, k < j ∧ s[k]? = some '-' then some '_'
      else s[j]? := by
  rw [normalize_version, foldl_set_getElem?]
  by_cases h : s[j]? = some '-' ∧ ∃ k, k < j ∧ s[k]? = some '-'
  · have hlen : j < s.length := by
      rcases List.getElem?_eq_some.mp h.1 with ⟨hl, _⟩
      exact hl
    simp [mem_dropLast_hyphens, h, hlen]
  · simp [mem_dropLast_hyphens, h]

theorem normalize_version_spec_getElem? (s : List Char) (j : Nat) :
    (normalize_version_spec s)[j]? =
      if s[j]? = some '-' ∧ ∃ k, k < j ∧ s[k]? = some '-' then some '_'
      else s[j]? := by
  induction s generalizing j with
  | nil => simp [normalize_version_spec]
  | cons c rest ih =>
    cases j with
    | zero =>
      by_cases h : c = '-' <;> simp [normalize_version_spec, h]
    | succ j =>
      by_cases h : c = '-'
      · subst h
        have hspec : normalize_version_spec ('-' :: rest) =
            '-' :: replaceAllHyphens rest := by
          simp [normalize_version_spec]
        rw [hspec]
        simp only [List.getElem?_cons_succ]
        rw [replaceAllHyphens, List.getElem?_map]
        have hex : ∃ k, k < j + 1 ∧ ('-' :: rest)[k]? = some '-' :=
          ⟨0, Nat.succ_pos _, by simp⟩
        cases hr : rest[j]? with
        | none => simp [hex]
        | some d =>
          by_cases hd : d = '-' <;> simp [hd, hex]
      · have hspec : normalize_version_spec (c :: rest) =
            c :: normalize_version_spec rest := by
          simp [normalize_version_spec, h]
        rw [hspec]
        simp only [List.getElem?_cons_succ]
        rw [ih]
        have hiff : (∃ k, k < j ∧ rest[k]? = some '-') ↔
            (∃ k, k < j + 1 ∧ (c :: rest)[k]? = some '-') := by
          constructor
          · rintro ⟨k, hk, hkh⟩
            exact ⟨k + 1, by omega, by simpa using hkh⟩
          · rintro ⟨k, hk, hkh⟩
            cases k with
            | zero =>
              simp at hkh
              exact absurd hkh h
            | succ k =>
              exact ⟨k, by omega, by simpa using hkh⟩
        exact if_congr (and_congr_right fun _ => hiff) rfl rfl

theorem normalize_version_eq_spec (s : List Char) :
    normalize_version s = normalize_version_spec s := by
  apply List.ext_getElem?
  intro j
  rw [normalize_version_getElem?, normalize_version_spec_getElem?]

theorem replaceAllHyphens_cons (c : Char) (rest : List Char) :
    replaceAllHyphens (c :: rest) =
      (if c = '-' then '_' else c) :: replaceAllHyphens rest := by
  simp [replaceAllHyphens]

theorem count_hyphen_replaceAllHyphens (l : List Char) :
    (replaceAllHyphens l).count '-' = 0 := by
  induction l with
  | nil => rfl
  | cons c rest ih =>
    rw [replaceAllHyphens_cons, List.count_cons, ih]
    by_cases h : c = '-' <;> simp [h]

theorem count_underscore_replaceAllHyphens (l : List Char) :
    (replaceAllHyphens l).count '_' = l.count '_' + l.count '-' := by
  induction l with
  | nil => rfl
  | cons c rest ih =>
    rw [replaceAllHyphens_cons, List.count_cons, ih,
      List.count_cons ('_' : Char) c, List.count_cons ('-' : Char) c]
    by_cases h : c = '-'
    · subst h
      simp
      omega
    · by_cases h2 : c = '_' <;> simp [h, h2] <;> omega

theorem count_hyphen_spec (s : List Char) :
    (normalize_version_spec s).count '-' = min (s.count '-') 1 := by
  induction s with
  | nil => rfl
  | cons c rest ih =>
    by_cases h : c = '-'
    · subst h
      have hspec : normalize_version_spec ('-' :: rest) =
          '-' :: replaceAllHyphens rest := by
        simp [normalize_version_spec]
      rw [hspec]
      simp [List.count_cons, count_hyphen_replaceAllHyphens]
    · have hspec : normalize_version_spec (c :: rest) =
          c :: normalize_version_spec rest := by
        simp [normalize_version_spec, h]
      rw [hspec]
      simp [List.count_cons, h, ih]

theorem count_underscore_spec (s : List Char) :
    (normalize_version_spec s).count '_' =
      s.count '_' + (s.count '-' - 1) := by
  induction s with
  | nil => rfl
  | cons c rest ih =>
    by_cases h : c = '-'
    · subst h
      have hspec : normalize_version_spec ('-' :: rest) =
          '-' :: replaceAllHyphens rest := by
        simp [normalize_version_spec]
      rw [hspec]
      simp [List.count_cons, count_underscore_replaceAllHyphens]
    · have hspec : normalize_version_spec (c :: rest) =
          c :: normalize_version_spec rest := by
        simp [normalize_version_spec, h]
      rw [hspec]
      by_cases h2 : c = '_' <;> simp [List.count_cons, h, h2, ih] <;> omega

theorem spec_eq_self_of_count_le_one {s : List Char} (h : s.count '-' ≤ 1) :
    normalize_version_spec s = s := by
  induction s with
  | nil => rfl
  | cons c rest ih =>
    by_cases hc : c = '-'
    · subst hc
      have hrest : rest.count '-' = 0 := by
        simp [List.count_cons] at h
        omega
      have hnm : '-' ∉ rest := List.count_eq_zero.mp hrest
      have hspec : normalize_version_spec ('-' :: rest) =
          '-' :: replaceAllHyphens rest := by
        simp [normalize_version_spec]
      rw [hspec, replaceAllHyphens]
      have : ∀ a ∈ rest, (if a = '-' then '_' else a) = id a := by
        intro a ha
        have : a ≠ '-' := fun heq => hnm (heq ▸ ha)
        simp [this]
      rw [List.map_congr_left this, List.map_id]
    · have hspec : normalize_version_spec (c :: rest) =
          c :: normalize_version_spec rest := by
        simp [normalize_version_spec, hc]
      rw [hspec, ih]
      simp [List.count_cons, hc] at h
      exact h

/-! ## Claim theorems for the version normalizer -/

/-- C1 counterexample: the claim says the RIGHTMOST hyphen is preserved.
On "1.0.0-alpha-1" (two hyphens, the rightmost at index 11) the code
leaves the leftmost hyphen (index 5) and rewrites the rightmost one, so
position 11 holds an underscore, not a hyphen. -/
theorem C1_counterexample :
    "1.0.0-alpha-1".toList.count '-' = 2 ∧
    ("1.0.0-alpha-1".toList)[11]? = some '-' ∧
    ("1.0.0-alpha-1".toList.drop 12).count '-' = 0 ∧
    ¬ (normalize_version "1.0.0-alpha-1".toList)[11]? = some '-' ∧
    (normalize_version "1.0.0-alpha-1".toList)[11]? = some '_' ∧
    normalize_version "1.0.0-alpha-1".toList = "1.0.0-alpha_1".toList := by
  decide

/-- C1 (amended): for every version string containing more than one
hyphen, the Version Normalizer replaces every hyphen except the LEFTMOST
one with an underscore and preserves the leftmost hyphen as a hyphen (so
exactly N-1 of N hyphens are replaced, and the leftmost hyphen's position
still holds a hyphen in the output). -/
theorem C1_amended_leftmost_hyphen_preserved (s : List Char)
    (h : 1 < s.count '-') (i : Nat) (hi : s[i]? = some '-') :
    ((∀ k, k < i → s[k]? ≠ some '-') →
      (normalize_version s)[i]? = some '-') ∧
    ((∃ k, k < i ∧ s[k]? = some '-') →
      (normalize_version s)[i]? = some '_') ∧
    (normalize_version s).count '-' = 1 ∧
    (normalize_version s).count '_' = s.count '_' + (s.count '-' - 1) := by
  refine ⟨?_, ?_, ?_, ?_⟩
  · intro hk
    rw [normalize_version_getElem?, if_neg, hi]
    rintro ⟨-, k, hki, hkh⟩
    exact hk k hki hkh
  · intro hex
    rw [normalize_version_getElem?, if_pos ⟨hi, hex⟩]
  · rw [normalize_version_eq_spec, count_hyphen_spec]
    omega
  · rw [normalize_version_eq_spec, count_underscore_spec]

/-- Witness for C1 (amended) at "1.0.0-alpha-1": the leftmost hyphen
(index 5) survives, the other (index 11) becomes an underscore, and the
output has exactly one hyphen. -/
theorem C1_amended_witness :
    (normalize_version "1.0.0-alpha-1".toList)[5]? = some '-' ∧
    (normalize_version "1.0.0-alpha-1".toList)[11]? = some '_' ∧
    (normalize_version "1.0.0-alpha-1".toList).count '-' = 1 := by
  refine ⟨?_, ?_, ?_⟩
  · exact (C1_amended_leftmost_hyphen_preserved "1.0.0-alpha-1".toList
      (by decide) 5 (by decide)).1 (by decide)
  · exact (C1_amended_leftmost_hyphen_preserved "1.0.0-alpha-1".toList
      (by decide) 11 (by decide)).2.1 ⟨5, by decide, by decide⟩
  · exact (C1_amended_leftmost_hyphen_preserved "1.0.0-alpha-1".toList
      (by decide) 5 (by decide)).2.2.1

/-- C2: for every version string, the Version Normalizer rewrites every
hyphen other than the first (leftmost) one into an underscore, leaving
that first hyphen unchanged and every non-hyphen character unchanged.
Stated as (a) equality with the claim-side description
`normalize_version_spec`, and (b) the pointwise consequences. -/
theorem C2_rewrites_all_but_first_hyphen (s : List Char) :
    normalize_version s = normalize_version_spec s ∧
    (∀ (i : Nat), s[i]? = some '-' → (∃ k, k < i ∧ s[k]? = some '-') →
      (normalize_version s)[i]? = some '_') ∧
    (∀ (i : Nat), s[i]? = some '-' → (∀ k, k < i → s[k]? ≠ some '-') →
      (normalize_version s)[i]? = some '-') ∧
    (∀ (i : Nat) (c : Char), s[i]? = some c → c ≠ '-' →
      (normalize_version s)[i]? = some c) := by
  refine ⟨normalize_version_eq_spec s, ?_, ?_, ?_⟩
  · intro i hi hex
    rw [normalize_version_getElem?, if_pos ⟨hi, hex⟩]
  · intro i hi hk
    rw [normalize_version_getElem?, if_neg, hi]
    rintro ⟨-, k, hki, hkh⟩
    exact hk k hki hkh
  · intro i c hi hc
    rw [normalize_version_getElem?, if_neg, hi]
    rintro ⟨hhy, -⟩
    rw [hi] at hhy
    exact hc (Option.some.injEq .. ▸ hhy)

/-- Witness for C2 at "1.0.0-beta-2": hyphens at indices 5 and 10; the
first survives, the second becomes an underscore, 'b' at index 6 is kept. -/
theorem C2_witness :
    normalize_version "1.0.0-beta-2".toList =
      normalize_version_spec "1.0.0-beta-2".toList ∧
    (normalize_version "1.0.0-beta-2".toList)[10]? = some '_' ∧
    (normalize_version "1.0.0-beta-2".toList)[5]? = some '-' ∧
    (normalize_version "1.0.0-beta-2".toList)[6]? = some 'b' := by
  refine ⟨(C2_rewrites_all_but_first_hyphen _).1, ?_, ?_, ?_⟩
  · exact (C2_rewrites_all_but_first_hyphen "1.0.0-beta-2".toList).2.1 10
      (by decide) ⟨5, by decide, by decide⟩
  · exact (C2_rewrites_all_but_first_hyphen "1.0.0-beta-2".toList).2.2.1 5
      (by decide) (by decide)
  · exact (C2_rewrites_all_but_first_hyphen "1.0.0-beta-2".toList).2.2.2 6 'b'
      (by decide) (by decide)

/-- C8: for every version string containing zero or one hyphen, the
Version Normalizer returns the input string unchanged. -/
theorem C8_at_most_one_hyphen_unchanged (s : List Char)
    (h : s.count '-' ≤ 1) : normalize_version s = s := by
  rw [normalize_version_eq_spec]
  exact spec_eq_self_of_count_le_one h

/-- Witness for C8 at "1.2.3" (zero hyphens) and "1.2.3-beta" (one). -/
theorem C8_witness :
    normalize_version "1.2.3".toList = "1.2.3".toList ∧
    normalize_version "1.2.3-beta".toList = "1.2.3-beta".toList :=
  ⟨C8_at_most_one_hyphen_unchanged "1.2.3".toList (by decide),
   C8_at_most_one_hyphen_unchanged "1.2.3-beta".toList (by decide)⟩

/-! ## License expression normalizer (src/main.rs lines 70-89) -/

/-- Embeds Rust's `str::replace(pat, rep)`: scan left to right and replace
each non-overlapping occurrence of `pat` by `rep` (leftmost-first). -/
def replaceL (pat rep : List Char) : List Char → List Char
  | [] => []
  | c :: rest =>
    if h : pat ≠ [] ∧ pat.isPrefixOf (c :: rest) then
      rep ++ replaceL pat rep ((c :: rest).drop pat.length)
    else
      c :: replaceL pat rep rest
termination_by s => s.length
decreasing_by
  · have hlen : pat.length ≤ (c :: rest).length :=
      (List.isPrefixOf_iff_prefix.mp h.2).length_le
    have hpos : 0 < pat.length := List.length_pos.mpr h.1
    simp only [List.length_drop, List.length_cons] at *
    omega
  · simp only [List.length_cons]
    omega

/-- Embeds `lic.replace(" / ", " OR ").replace("/", " OR ")`. -/
def lic_replace (lic : List Char) : List Char :=
  replaceL "/".toList " OR ".toList (replaceL " / ".toList " OR ".toList lic)

/-- Embeds the wrapping step: `if lic.contains("OR") || lic.contains("AND")
{ lic.insert_str(0, "( "); lic.push_str(" )"); }`. -/
def lic_wrapped (lic : List Char) : List Char :=
  if ("OR".toList <:+: lic_replace lic) ∨ ("AND".toList <:+: lic_replace lic) then
    "( ".toList ++ lic_replace lic ++ " )".toList
  else lic_replace lic

/-- Embeds the final `match lic.as_str()` special case of
`do_license_check`. -/
def normalize_license (lic : List Char) : List Char :=
  if lic_wrapped lic = "( MIT OR Apache-2.0 )".toList then
    "( Apache-2.0 OR MIT )".toList
  else lic_wrapped lic

/-- Claim-side notion of the leftmost occurrence of `pat` in `s`: the
smallest index at which `pat` is a prefix of the remaining suffix. -/
def firstOcc (pat s : List Char) : Option Nat :=
  (List.range (s.length + 1)).find? fun i => pat.isPrefixOf (s.drop i)

/-- Claim-side description of "replace every occurrence of `pat` with
`rep`": repeatedly locate the leftmost occurrence and substitute it. -/
def replaceSpec (pat rep : List Char) (s : List Char) : List Char :=
  if hpat : pat = [] then s
  else
    match h : firstOcc pat s with
    | none => s
    | some i => s.take i ++ rep ++ replaceSpec pat rep (s.drop (i + pat.length))
termination_by s.length
decreasing_by
  simp only [firstOcc] at h
  have hp : pat.isPrefixOf (s.drop i) = true := by
    have := List.find?_some h
    simpa using this
  have hlen : pat.length ≤ (s.drop i).length :=
    (List.isPrefixOf_iff_prefix.mp hp).length_le
  have hpos : 0 < pat.length := List.length_pos.mpr hpat
  simp only [List.length_drop] at *
  omega

theorem firstOcc_nil {pat : List Char} (h : pat ≠ []) : firstOcc pat [] = none := by
  cases pat with
  | nil => exact absurd rfl h
  | cons a t => rfl

theorem firstOcc_cons (pat : List Char) (c : Char) (rest : List Char) :
    firstOcc pat (c :: rest) =
      if pat.isPrefixOf (c :: rest) then some 0
      else (firstOcc pat rest).map (· + 1) := by
  unfold firstOcc
  have hlen : (c :: rest).length + 1 = (rest.length + 1) + 1 := by simp
  rw [hlen, List.range_succ_eq_map, List.find?_cons]
  by_cases hp : pat.isPrefixOf (c :: rest)
  · simp [hp]
  · have hp' : pat.isPrefixOf ((c :: rest).drop 0) = false := by
      rw [List.drop_zero]
      exact Bool.eq_false_iff.mpr hp
    rw [hp']
    simp only [hp, if_false]
    rw [List.find?_map]
    have : ((fun i => pat.isPrefixOf ((c :: rest).drop i)) ∘ Nat.succ) =
        fun i => pat.isPrefixOf (rest.drop i) := by
      funext i
      rfl
    rw [this]
    simp [Nat.succ_eq_add_one]

theorem replaceSpec_of_firstOcc_none {pat rep s : List Char}
    (hpat : pat ≠ []) (h : firstOcc pat s = none) :
    replaceSpec pat rep s = s := by
  unfold replaceSpec
  rw [dif_neg hpat]
  split
  · rfl
  · rename_i i heq
    rw [h] at heq
    cases heq

theorem replaceSpec_of_firstOcc_some {pat rep s : List Char} {i : Nat}
    (hpat : pat ≠ []) (h : firstOcc pat s = some i) :
    replaceSpec pat rep s =
      s.take i ++ rep ++ replaceSpec pat rep (s.drop (i + pat.length)) := by
  conv_lhs => unfold replaceSpec
  rw [dif_neg hpat]
  split
  · rename_i heq
    rw [h] at heq
    cases heq
  · rename_i i' heq
    rw [h] at heq
    injection heq with hi
    subst hi
    rfl

/-- The code's scanning replacement agrees with the claim-side
leftmost-occurrence replacement (for a non-empty pattern). -/
theorem replaceL_eq_replaceSpec (pat rep : List Char) (hpat : pat ≠ []) :
    ∀ s : List Char, replaceL pat rep s = replaceSpec pat rep s := by
  have main : ∀ (n : Nat) (s : List Char), s.length ≤ n →
      replaceL pat rep s = replaceSpec pat rep s := by
    intro n
    induction n with
    | zero =>
      intro s hs
      have hnil : s = [] := List.eq_nil_of_length_eq_zero (Nat.le_zero.mp hs)
      subst hnil
      rw [replaceSpec_of_firstOcc_none hpat (firstOcc_nil hpat)]
      simp [replaceL]
    | succ n ih =>
      intro s hs
      cases s with
      | nil =>
        rw [replaceSpec_of_firstOcc_none hpat (firstOcc_nil hpat)]
        simp [replaceL]
      | cons c rest =>
        by_cases hp : pat.isPrefixOf (c :: rest)
        · have e1 : replaceL pat rep (c :: rest) =
              rep ++ replaceL pat rep ((c :: rest).drop pat.length) := by
            simp only [replaceL]
            rw [dif_pos ⟨hpat, hp⟩]
          have hf : firstOcc pat (c :: rest) = some 0 := by
            rw [firstOcc_cons, if_pos hp]
          rw [e1, replaceSpec_of_firstOcc_some hpat hf]
          have hpos : 0 < pat.length := List.length_pos.mpr hpat
          have hle : ((c :: rest).drop pat.length).length ≤ n := by
            simp only [List.length_drop, List.length_cons] at *
            omega
          rw [ih _ hle]
          simp
        · have e1 : replaceL pat rep (c :: rest) = c :: replaceL pat rep rest := by
            simp only [replaceL]
            rw [dif_neg (fun hh => hp hh.2)]
          have hf := firstOcc_cons pat c rest
          rw [if_neg hp] at hf
          have hle : rest.length ≤ n := by
            simp only [List.length_cons] at hs
            omega
          cases hr : firstOcc pat rest with
          | none =>
            rw [hr] at hf
            simp only [Option.map_none'] at hf
            rw [e1, replaceSpec_of_firstOcc_none hpat hf, ih rest hle,
              replaceSpec_of_firstOcc_none hpat hr]
          | some i =>
            rw [hr] at hf
            simp only [Option.map_some'] at hf
            rw [e1, replaceSpec_of_firstOcc_some hpat hf, ih rest hle,
              replaceSpec_of_firstOcc_some hpat hr]
            have hdrop : (c :: rest).drop (i + 1 + pat.length) =
                rest.drop (i + pat.length) := by
              have : i + 1 + pat.length = (i + pat.length) + 1 := by omega
              rw [this]
              rfl
            rw [hdrop]
            simp [List.take_succ_cons]
  intro s
  exact main s.length s le_rfl

theorem lic_replace_mit_apache :
    lic_replace "MIT/Apache-2.0".toList = "MIT OR Apache-2.0".toList := by
  simp [lic_replace, replaceL]

theorem lic_wrapped_mit_apache :
    lic_wrapped "MIT/Apache-2.0".toList = "( MIT OR Apache-2.0 )".toList := by
  rw [lic_wrapped, lic_replace_mit_apache, if_pos]
  · rfl
  · left
    decide

theorem lic_replace_mit : lic_replace "MIT".toList = "MIT".toList := by
  simp [lic_replace, replaceL]

theorem lic_wrapped_mit : lic_wrapped "MIT".toList = "MIT".toList := by
  rw [lic_wrapped, lic_replace_mit, if_neg]
  decide

/-! ## Claim theorems for the license normalizer -/

/-- Claim-side License Expression Normalizer up to wrapping, following the
claim's words: first replace every occurrence of " / " with " OR ", then
replace every remaining '/' with " OR " (both as leftmost-occurrence
replacements), then wrap in "( " and " )" iff the transformed string
contains the substring "OR" or "AND". -/
def lic_wrapped_claim (lic : List Char) : List Char :=
  let t := replaceSpec "/".toList " OR ".toList
    (replaceSpec " / ".toList " OR ".toList lic)
  if ("OR".toList <:+: t) ∨ ("AND".toList <:+: t) then
    "( ".toList ++ t ++ " )".toList
  else t

/-- C3: the License Expression Normalizer first replaces every occurrence
of " / " with " OR ", then every remaining '/' with " OR ", and wraps the
result in "( " and " )" if and only if it contains the substring "OR" or
"AND" (naive case-sensitive substring match, `<:+:`). -/
theorem C3_replace_then_wrap_iff (lic : List Char) :
    lic_wrapped lic = lic_wrapped_claim lic ∧
    lic_replace lic = replaceSpec "/".toList " OR ".toList
      (replaceSpec " / ".toList " OR ".toList lic) ∧
    (("OR".toList <:+: lic_replace lic ∨ "AND".toList <:+: lic_replace lic) →
      lic_wrapped lic = "( ".toList ++ lic_replace lic ++ " )".toList) ∧
    (¬("OR".toList <:+: lic_replace lic ∨ "AND".toList <:+: lic_replace lic) →
      lic_wrapped lic = lic_replace lic) := by
  have h2 : lic_replace lic = replaceSpec "/".toList " OR ".toList
      (replaceSpec " / ".toList " OR ".toList lic) := by
    rw [lic_replace, replaceL_eq_replaceSpec " / ".toList " OR ".toList (by decide),
      replaceL_eq_replaceSpec "/".toList " OR ".toList (by decide)]
  refine ⟨?_, h2, ?_, ?_⟩
  · rw [lic_wrapped, lic_wrapped_claim, h2]
  · intro h
    rw [lic_wrapped, if_pos h]
  · intro h
    rw [lic_wrapped, if_neg h]

/-- Witness for C3 at "MIT/Apache-2.0" (wrapped: the transformed string
contains "OR") and "MIT" (not wrapped). -/
theorem C3_witness :
    lic_wrapped "MIT/Apache-2.0".toList =
      "( ".toList ++ lic_replace "MIT/Apache-2.0".toList ++ " )".toList ∧
    lic_wrapped "MIT".toList = lic_replace "MIT".toList := by
  constructor
  · exact (C3_replace_then_wrap_iff "MIT/Apache-2.0".toList).2.2.1
      (Or.inl (by rw [lic_replace_mit_apache]; decide))
  · exact (C3_replace_then_wrap_iff "MIT".toList).2.2.2
      (by rw [lic_replace_mit]; decide)

/-- C4: after slash replacement and wrapping, the result is rewritten to
"( Apache-2.0 OR MIT )" exactly when the intermediate result is the
literal "( MIT OR Apache-2.0 )"; every other string is returned as-is; in
particular "MIT/Apache-2.0" normalizes to "( Apache-2.0 OR MIT )". -/
theorem C4_special_case_swap (lic : List Char) :
    (lic_wrapped lic = "( MIT OR Apache-2.0 )".toList →
      normalize_license lic = "( Apache-2.0 OR MIT )".toList) ∧
    (lic_wrapped lic ≠ "( MIT OR Apache-2.0 )".toList →
      normalize_license lic = lic_wrapped lic) ∧
    normalize_license "MIT/Apache-2.0".toList = "( Apache-2.0 OR MIT )".toList := by
  refine ⟨?_, ?_, ?_⟩
  · intro h
    rw [normalize_license, if_pos h]
  · intro h
    rw [normalize_license, if_neg h]
  · rw [normalize_license, lic_wrapped_mit_apache, if_pos rfl]

/-- Witness for C4: the special case fires on "MIT/Apache-2.0" and does
not fire on "MIT". -/
theorem C4_witness :
    normalize_license "MIT/Apache-2.0".toList = "( Apache-2.0 OR MIT )".toList ∧
    normalize_license "MIT".toList = lic_wrapped "MIT".toList := by
  constructor
  · exact (C4_special_case_swap "MIT/Apache-2.0".toList).1
      (by rw [lic_wrapped_mit_apache])
  · exact (C4_special_case_swap "MIT".toList).2.1
      (by rw [lic_wrapped_mit]; decide)

theorem not_slash_replaceL_slash {rep : List Char} (hrep : '/' ∉ rep) :
    ∀ s : List Char, '/' ∉ replaceL "/".toList rep s := by
  have main : ∀ (n : Nat) (s : List Char), s.length ≤ n →
      '/' ∉ replaceL "/".toList rep s := by
    intro n
    induction n with
    | zero =>
      intro s hs
      have hnil : s = [] := List.eq_nil_of_length_eq_zero (Nat.le_zero.mp hs)
      subst hnil
      simp [replaceL]
    | succ n ih =>
      intro s hs
      cases s with
      | nil => simp [replaceL]
      | cons c rest =>
        by_cases hc : c = '/'
        · subst hc
          have hpre : ("/".toList).isPrefixOf ('/' :: rest) = true :=
            List.isPrefixOf_iff_prefix.mpr ⟨rest, rfl⟩
          have e1 : replaceL "/".toList rep ('/' :: rest) =
              rep ++ replaceL "/".toList rep rest := by
            simp only [replaceL]
            rw [dif_pos ⟨by decide, hpre⟩]
            rfl
          rw [e1]
          intro hmem
          rcases List.mem_append.mp hmem with h1 | h2
          · exact hrep h1
          · exact ih rest (by simpa using hs) h2
        · have hpre : ("/".toList).isPrefixOf (c :: rest) = false := by
            have : ¬ ("/".toList <+: (c :: rest)) := by
              rintro ⟨t, ht⟩
              simp at ht
              exact hc ht.1.symm
            exact Bool.eq_false_iff.mpr
              (fun hh => this (List.isPrefixOf_iff_prefix.mp hh))
          have e1 : replaceL "/".toList rep (c :: rest) =
              c :: replaceL "/".toList rep rest := by
            simp only [replaceL]
            rw [dif_neg (fun hh => by rw [hpre] at hh; exact Bool.false_ne_true hh.2)]
          rw [e1]
          intro hmem
          rcases List.mem_cons.mp hmem with h1 | h2
          · exact hc h1.symm
          · exact ih rest (by simpa using hs) h2
  intro s
  exact main s.length s le_rfl

/-- C10: the string returned by the License Expression Normalizer never
contains a '/' character. -/
theorem C10_no_slash_in_normalized (lic : List Char) :
    (normalize_license lic).count '/' = 0 := by
  rw [List.count_eq_zero, normalize_license]
  split
  · decide
  · rw [lic_wrapped]
    have hmain : '/' ∉ lic_replace lic := by
      rw [lic_replace]
      exact not_slash_replaceL_slash (by decide) _
    split
    · intro hmem
      rcases List.mem_append.mp hmem with h1 | h2
      · rcases List.mem_append.mp h1 with ha | hb
        · exact absurd ha (by decide)
        · exact hmain hb
      · exact absurd h2 (by decide)
    · exact hmain

/-! ## Main program model (src/main.rs lines 47-106 and 108-206) -/

/-- One `[[package]]` record of the lockfile (struct `Pkg`). -/
structure Pkg where
  name : List Char
  version : List Char
  dependencies : Option (List (List Char)) := none
  source : Option (List Char) := none
  checksum : Option (List Char) := none
deriving DecidableEq

/-- Reified state of a per-package `Cargo.toml` manifest on disk:
absent, unreadable (read panics), invalid TOML (parse panics), or parsed
into the `(license, license-file)` field pair of struct `Cargotoml`. -/
inductive ManifestState where
  | missing
  | unreadable
  | invalid
  | parsed (license : Option (List Char)) (license_file : Option (List Char))
deriving DecidableEq

/-- `Path::join` with a `/` separator. -/
def joinPath (a b : List Char) : List Char := a ++ '/' :: b

/-- The `{:?}` debug rendering of a path: quoted. -/
def quoteDbg (p : List Char) : List Char := '"' :: p ++ ['"']

def msg_missing_manifest (p : List Char) : List Char :=
  "Unable to check license from ".toList ++ quoteDbg p ++
    ". You may need to check this manually".toList

def msg_license_file (manifest lf : List Char) : List Char :=
  "Unable to find license in ".toList ++ quoteDbg manifest ++
    ". You may need to check ".toList ++ quoteDbg lf ++ " for details.".toList

def msg_undetermined (p : List Char) : List Char :=
  "Unable to determine license for ".toList ++ quoteDbg p ++
    ". You must manually investigate!".toList

def msg_no_vendordir (vd : List Char) : List Char :=
  "ERROR could not find vendordir - ".toList ++ quoteDbg vd

/-- Embeds `do_license_check` (non-debug run): `dir` is the per-package
vendor directory (`vendordir.join(&pkg.name)` at the call site), `fs`
maps such directories to the state of their `Cargo.toml`.  Returns the
stderr lines and the optional normalized license; a Rust `expect` panic
is `Except.error` with the panic message. -/
def do_license_check (fs : List Char → ManifestState) (dir : List Char) :
    Except (List Char) (List (List Char) × Option (List Char)) :=
  let manifest := joinPath dir "Cargo.toml".toList
  match fs dir with
  | .missing => .ok ([msg_missing_manifest manifest], none)
  | .unreadable => .error "Unable to open cargo.toml for reading!".toList
  | .invalid => .error "Unable to parse cargo.toml, invalid!".toList
  | .parsed lic lf =>
    match lic, lf with
    | some l, _ => .ok ([], some (normalize_license l))
    | none, some f => .ok ([msg_license_file manifest (joinPath dir f)], none)
    | none, none => .ok ([msg_undetermined manifest], none)

/-- Embeds the `config.package.iter().filter_map(|pkg|
do_license_check(&vendordir.join(&pkg.name), debug)).collect()` loop:
stderr lines accumulate in order, `None` results are dropped, and a
panic aborts the run. -/
def collectLicenses (fs : List Char → ManifestState) (vd : List Char) :
    List Pkg → Except (List Char) (List (List Char) × List (List Char))
  | [] => .ok ([], [])
  | p :: rest =>
    match do_license_check fs (joinPath vd p.name) with
    | .error e => .error e
    | .ok (errs, res) =>
      match collectLicenses fs vd rest with
      | .error e => .error e
      | .ok (errs2, lics) =>
        .ok (errs ++ errs2,
          match res with
          | some l => l :: lics
          | none => lics)

/-- Embeds `Vec::dedup`: removes consecutive duplicates. -/
def rustDedup : List (List Char) → List (List Char)
  | [] => []
  | [a] => [a]
  | a :: b :: rest =>
    if a = b then rustDedup (b :: rest) else a :: rustDedup (b :: rest)

/-- Embeds `licenses.sort(); licenses.dedup();` (lexicographic order on
strings). -/
def sortDedup (ls : List (List Char)) : List (List Char) :=
  rustDedup (ls.mergeSort fun a b => decide (a ≤ b))

/-- Embeds `println!("Provides: bundled(crate({})) = {}", pkg.name, version)`. -/
def provides_line (p : Pkg) : List Char :=
  "Provides: bundled(crate(".toList ++ p.name ++ ")) = ".toList ++
    normalize_version p.version

/-- Embeds the aggregate line: `license.push_str(&lic); license.push_str(" AND ")`
folded over the license set, printed as `println!("License: {}", license)`. -/
def license_line (licenses : List (List Char)) : List Char :=
  "License: ".toList ++
    licenses.foldl (fun acc l => acc ++ l ++ " AND ".toList) []

/-- The observable outcome of a normally-terminating run. -/
structure RunOut where
  stdout : List (List Char)
  stderr : List (List Char)
deriving DecidableEq

/-- Embeds `main` after the lockfile has been parsed into `pkgs`
(non-debug run): resolve licenses when the vendor directory exists,
sort and dedup them, print one Provides line per package in order and
the aggregate License line last.  A panic is `Except.error`. -/
def main_run (vendorExists : Bool) (fs : List Char → ManifestState)
    (vd : List Char) (pkgs : List Pkg) : Except (List Char) RunOut :=
  match (if vendorExists then collectLicenses fs vd pkgs
         else .ok ([msg_no_vendordir vd], [])) with
  | .error e => .error e
  | .ok (errs, lics) =>
    .ok { stdout := pkgs.map provides_line ++ [license_line (sortDedup lics)],
          stderr := errs }

/-- The pure per-package license resolution underlying the collect loop. -/
def resolve_license (fs : List Char → ManifestState) (vd : List Char)
    (p : Pkg) : Option (List Char) :=
  match fs (joinPath vd p.name) with
  | .parsed (some l) _ => some (normalize_license l)
  | _ => none

theorem do_license_check_ok_res {fs : List Char → ManifestState}
    {dir : List Char} {errs : List (List Char)} {res : Option (List Char)}
    (h : do_license_check fs dir = .ok (errs, res)) :
    res = (match fs dir with
           | .parsed (some l) _ => some (normalize_license l)
           | _ => none) := by
  cases hst : fs dir with
  | missing =>
    rw [do_license_check, hst] at h
    injection h with h'
    cases h'
    rfl
  | unreadable =>
    rw [do_license_check, hst] at h
    cases h
  | invalid =>
    rw [do_license_check, hst] at h
    cases h
  | parsed lic lf =>
    cases lic with
    | some l =>
      rw [do_license_check, hst] at h
      injection h with h'
      cases h'
      rfl
    | none =>
      cases lf with
      | some f =>
        rw [do_license_check, hst] at h
        injection h with h'
        cases h'
        rfl
      | none =>
        rw [do_license_check, hst] at h
        injection h with h'
        cases h'
        rfl

theorem collectLicenses_ok_licenses {fs : List Char → ManifestState}
    {vd : List Char} :
    ∀ {pkgs : List Pkg} {errs lics : List (List Char)},
      collectLicenses fs vd pkgs = .ok (errs, lics) →
      lics = pkgs.filterMap (resolve_license fs vd) := by
  intro pkgs
  induction pkgs with
  | nil =>
    intro errs lics h
    rw [collectLicenses] at h
    injection h with h'
    cases h'
    rfl
  | cons p rest ih =>
    intro errs lics h
    rw [collectLicenses] at h
    cases hd : do_license_check fs (joinPath vd p.name) with
    | error e =>
      rw [hd] at h
      cases h
    | ok pr =>
      obtain ⟨perrs, pres⟩ := pr
      rw [hd] at h
      cases hc : collectLicenses fs vd rest with
      | error e =>
        rw [hc] at h
        cases h
      | ok qr =>
        obtain ⟨qerrs, qlics⟩ := qr
        rw [hc] at h
        have hres := do_license_check_ok_res hd
        have hq := ih hc
        have hresolve : resolve_license fs vd p = pres := by
          rw [resolve_license, ← hres]
        rw [List.filterMap_cons, hresolve]
        cases pres with
        | some l =>
          injection h with h'
          have h2 := congrArg Prod.snd h'
          simp only at h2
          rw [← h2, hq]
        | none =>
          injection h with h'
          have h2 := congrArg Prod.snd h'
          simp only at h2
          rw [← h2, hq]

theorem mergeSort_eq_of_perm {l₁ l₂ : List (List Char)} (h : l₁.Perm l₂) :
    (l₁.mergeSort fun a b => decide (a ≤ b)) =
      (l₂.mergeSort fun a b => decide (a ≤ b)) := by
  have htrans : ∀ a b c : List Char, decide (a ≤ b) = true →
      decide (b ≤ c) = true → decide (a ≤ c) = true := by
    intro a b c hab hbc
    rw [decide_eq_true_eq] at *
    exact le_trans hab hbc
  have htotal : ∀ a b : List Char,
      (decide (a ≤ b) || decide (b ≤ a)) = true := by
    intro a b
    simpa using le_total a b
  have hs1 := List.sorted_mergeSort htrans htotal l₁
  have hs2 := List.sorted_mergeSort htrans htotal l₂
  have hperm : (l₁.mergeSort fun a b => decide (a ≤ b)).Perm
      (l₂.mergeSort fun a b => decide (a ≤ b)) :=
    ((List.mergeSort_perm l₁ _).trans h).trans (List.mergeSort_perm l₂ _).symm
  haveI : IsAntisymm (List Char) (fun a b => decide (a ≤ b) = true) := by
    constructor
    intro a b hab hba
    rw [decide_eq_true_eq] at *
    exact le_antisymm hab hba
  exact List.eq_of_perm_of_sorted hperm hs1 hs2

theorem sortDedup_perm_invariant {l₁ l₂ : List (List Char)}
    (h : l₁.Perm l₂) : sortDedup l₁ = sortDedup l₂ := by
  rw [sortDedup, sortDedup, mergeSort_eq_of_perm h]

theorem sortDedup_nil : sortDedup [] = [] := by
  rw [sortDedup, List.mergeSort_nil]
  rfl

theorem mem_rustDedup {x : List Char} :
    ∀ {l : List (List Char)}, x ∈ rustDedup l → x ∈ l := by
  intro l
  induction l with
  | nil => intro h; cases h
  | cons a t ih =>
    cases t with
    | nil => intro h; exact h
    | cons b rest =>
      rw [rustDedup]
      by_cases hab : a = b
      · rw [if_pos hab]
        intro h
        exact List.mem_cons_of_mem a (ih h)
      · rw [if_neg hab]
        intro h
        rcases List.mem_cons.mp h with rfl | h2
        · exact List.mem_cons_self _ _
        · exact List.mem_cons_of_mem a (ih h2)

theorem sorted_lt_rustDedup :
    ∀ {l : List (List Char)}, List.Sorted (· ≤ ·) l →
      List.Sorted (· < ·) (rustDedup l) := by
  intro l
  induction l with
  | nil => intro _; exact List.Pairwise.nil
  | cons a t ih =>
    cases t with
    | nil => intro _; simp [rustDedup]
    | cons b rest =>
      intro hs
      rw [List.sorted_cons] at hs
      obtain ⟨hall, hs2⟩ := hs
      rw [rustDedup]
      by_cases hab : a = b
      · rw [if_pos hab]
        exact ih hs2
      · rw [if_neg hab]
        refine List.Pairwise.cons ?_ (ih hs2)
        intro x hx
        have hxmem : x ∈ b :: rest := mem_rustDedup hx
        have hb : a < b :=
          lt_of_le_of_ne (hall b (List.mem_cons_self _ _)) hab
        rcases List.mem_cons.mp hxmem with rfl | hxr
        · exact hb
        · have hbx : b ≤ x := by
            rw [List.sorted_cons] at hs2
            exact hs2.1 x hxr
          exact lt_of_lt_of_le hb hbx

theorem sortDedup_sorted_lt (ls : List (List Char)) :
    List.Sorted (· < ·) (sortDedup ls) := by
  rw [sortDedup]
  apply sorted_lt_rustDedup
  have htrans : ∀ a b c : List Char, decide (a ≤ b) = true →
      decide (b ≤ c) = true → decide (a ≤ c) = true := by
    intro a b c hab hbc
    rw [decide_eq_true_eq] at *
    exact le_trans hab hbc
  have htotal : ∀ a b : List Char,
      (decide (a ≤ b) || decide (b ≤ a)) = true := by
    intro a b
    simpa using le_total a b
  have hs := List.sorted_mergeSort htrans htotal ls
  exact hs.imp fun h => by simpa using h

theorem foldl_append_and (ls : List (List Char)) :
    ∀ acc : List Char,
      ls.foldl (fun acc l => acc ++ l ++ " AND ".toList) acc =
        acc ++ (ls.map fun l => l ++ " AND ".toList).flatten := by
  induction ls with
  | nil =>
    intro acc
    simp
  | cons x t ih =>
    intro acc
    rw [List.foldl_cons, ih]
    simp [List.append_assoc]

theorem license_line_eq_flatten (ls : List (List Char)) :
    license_line ls =
      "License: ".toList ++ (ls.map fun l => l ++ " AND ".toList).flatten := by
  rw [license_line, foldl_append_and]
  rfl

theorem license_line_nil : license_line [] = "License: ".toList := by
  rw [license_line]
  rfl

theorem main_run_ok_characterization {ve : Bool}
    {fs : List Char → ManifestState} {vd : List Char} {pkgs : List Pkg}
    {out : RunOut} (h : main_run ve fs vd pkgs = .ok out) :
    ∃ errs lics,
      (if ve then collectLicenses fs vd pkgs
       else .ok ([msg_no_vendordir vd], [])) = .ok (errs, lics) ∧
      out = ⟨pkgs.map provides_line ++ [license_line (sortDedup lics)], errs⟩ := by
  rw [main_run] at h
  cases hm : (if ve then collectLicenses fs vd pkgs
             else .ok ([msg_no_vendordir vd], [])) with
  | error e =>
    rw [hm] at h
    cases h
  | ok pr =>
    obtain ⟨errs, lics⟩ := pr
    rw [hm] at h
    injection h with h'
    exact ⟨errs, lics, rfl, h'.symm⟩

/-! ## Claim theorems for the report emitter and error handling -/

/-- C5: the aggregate license line is "License: " followed by each
resolved license immediately followed by " AND " (so it ends with a
trailing " AND " after the last license); for the empty license set it is
exactly "License: "; and every normally-terminating run prints such a
line last on stdout. -/
theorem C5_aggregate_license_line :
    (∀ ls : List (List Char), license_line ls =
      "License: ".toList ++ (ls.map fun l => l ++ " AND ".toList).flatten) ∧
    license_line [] = "License: ".toList ∧
    (∀ (ve : Bool) (fs : List Char → ManifestState) (vd : List Char)
      (pkgs : List Pkg) (out : RunOut), main_run ve fs vd pkgs = .ok out →
      ∃ ls : List (List Char),
        out.stdout.getLast? = some (license_line ls)) := by
  refine ⟨license_line_eq_flatten, license_line_nil, ?_⟩
  intro ve fs vd pkgs out h
  obtain ⟨errs, lics, -, hout⟩ := main_run_ok_characterization h
  refine ⟨sortDedup lics, ?_⟩
  rw [hout]
  exact List.getLast?_concat _

/-- Witness for C5: a run with no packages and a missing vendor
directory ends stdout with an aggregate license line. -/
theorem C5_witness :
    ∃ ls : List (List Char),
      (RunOut.mk [license_line (sortDedup [])]
        [msg_no_vendordir "vendor".toList]).stdout.getLast? =
        some (license_line ls) :=
  C5_aggregate_license_line.2.2 false (fun _ => ManifestState.missing)
    "vendor".toList [] _ rfl

/-- C6: Provides lines are emitted one per package in lockfile order, in
the exact form "Provides: bundled(crate(name)) = normalized-version";
the license list of the aggregate line is sorted lexicographically and
deduplicated, hence invariant under permutation of the package order. -/
theorem C6_provides_order_license_set :
    (∀ (fs : List Char → ManifestState) (vd : List Char) (pkgs : List Pkg)
      (out : RunOut), main_run true fs vd pkgs = .ok out →
      out.stdout = pkgs.map provides_line ++
        [license_line (sortDedup (pkgs.filterMap (resolve_license fs vd)))]) ∧
    (∀ p : Pkg, provides_line p =
      "Provides: bundled(crate(".toList ++ p.name ++ ")) = ".toList ++
        normalize_version p.version) ∧
    (∀ ls : List (List Char),
      List.Sorted (· ≤ ·) (sortDedup ls) ∧ (sortDedup ls).Nodup) ∧
    (∀ (fs : List Char → ManifestState) (vd : List Char)
      (pkgs₁ pkgs₂ : List Pkg), pkgs₁.Perm pkgs₂ →
      sortDedup (pkgs₁.filterMap (resolve_license fs vd)) =
        sortDedup (pkgs₂.filterMap (resolve_license fs vd))) := by
  refine ⟨?_, fun p => rfl, ?_, ?_⟩
  · intro fs vd pkgs out h
    obtain ⟨errs, lics, hm, hout⟩ := main_run_ok_characterization h
    rw [if_pos rfl] at hm
    rw [hout, collectLicenses_ok_licenses hm]
  · intro ls
    have hlt := sortDedup_sorted_lt ls
    exact ⟨hlt.imp fun h => le_of_lt h, hlt.imp fun h => ne_of_lt h⟩
  · intro fs vd pkgs₁ pkgs₂ hperm
    exact sortDedup_perm_invariant (hperm.filterMap _)

/-- Witness for C6: a concrete run with no packages, and permutation
invariance on a concrete two-package swap. -/
theorem C6_witness :
    (RunOut.mk [license_line (sortDedup [])] []).stdout =
      ([] : List Pkg).map provides_line ++
        [license_line (sortDedup (([] : List Pkg).filterMap
          (resolve_license (fun _ => ManifestState.missing) "vendor".toList)))] ∧
    sortDedup ([⟨"a".toList, "1".toList, none, none, none⟩,
        ⟨"b".toList, "2".toList, none, none, none⟩].filterMap
      (resolve_license (fun _ => ManifestState.missing) "vendor".toList)) =
    sortDedup ([⟨"b".toList, "2".toList, none, none, none⟩,
        ⟨"a".toList, "1".toList, none, none, none⟩].filterMap
      (resolve_license (fun _ => ManifestState.missing) "vendor".toList)) :=
  ⟨C6_provides_order_license_set.1 (fun _ => ManifestState.missing)
      "vendor".toList [] _ rfl,
   C6_provides_order_license_set.2.2.2 (fun _ => ManifestState.missing)
      "vendor".toList _ _ (by decide)⟩

/-- C7: when a package's per-package manifest is missing, the License
Resolver emits the diagnostic naming the manifest path to stderr and
returns absent without aborting; the package contributes nothing to the
collected license list and the remaining packages are processed exactly
as before. -/
theorem C7_missing_manifest_recoverable (fs : List Char → ManifestState)
    (vd : List Char) (p : Pkg) (rest : List Pkg)
    (h : fs (joinPath vd p.name) = .missing) :
    do_license_check fs (joinPath vd p.name) =
      .ok ([msg_missing_manifest
        (joinPath (joinPath vd p.name) "Cargo.toml".toList)], none) ∧
    collectLicenses fs vd (p :: rest) =
      (collectLicenses fs vd rest).map fun r =>
        (msg_missing_manifest
          (joinPath (joinPath vd p.name) "Cargo.toml".toList) :: r.1, r.2) := by
  have h1 : do_license_check fs (joinPath vd p.name) =
      .ok ([msg_missing_manifest
        (joinPath (joinPath vd p.name) "Cargo.toml".toList)], none) := by
    rw [do_license_check, h]
  refine ⟨h1, ?_⟩
  rw [collectLicenses, h1]
  cases hc : collectLicenses fs vd rest with
  | error e => rfl
  | ok qr =>
    obtain ⟨qerrs, qlics⟩ := qr
    rfl

/-- Witness for C7: a one-package lockfile whose manifest is missing. -/
theorem C7_witness :
    do_license_check (fun _ => ManifestState.missing)
        (joinPath "vendor".toList "foo".toList) =
      .ok ([msg_missing_manifest (joinPath
        (joinPath "vendor".toList "foo".toList) "Cargo.toml".toList)], none) ∧
    collectLicenses (fun _ => ManifestState.missing) "vendor".toList
        [⟨"foo".toList, "1.0.0".toList, none, none, none⟩] =
      (collectLicenses (fun _ => ManifestState.missing)
          "vendor".toList []).map fun r =>
        (msg_missing_manifest (joinPath (joinPath "vendor".toList
          "foo".toList) "Cargo.toml".toList) :: r.1, r.2) :=
  C7_missing_manifest_recoverable (fun _ => ManifestState.missing)
    "vendor".toList ⟨"foo".toList, "1.0.0".toList, none, none, none⟩ [] rfl

/-- C9: when the vendor directory does not exist, the run prints the
error to stderr, resolves no licenses (the license set is empty), still
prints one Provides line per package in lockfile order, ends stdout with
the line "License: ", and completes normally. -/
theorem C9_missing_vendordir (fs : List Char → ManifestState)
    (vd : List Char) (pkgs : List Pkg) :
    main_run false fs vd pkgs =
      .ok ⟨pkgs.map provides_line ++ [license_line []],
        [msg_no_vendordir vd]⟩ ∧
    license_line [] = "License: ".toList := by
  constructor
  · have h0 : main_run false fs vd pkgs =
        .ok ⟨pkgs.map provides_line ++ [license_line (sortDedup [])],
          [msg_no_vendordir vd]⟩ := rfl
    rw [h0, sortDedup_nil]
  · exact license_line_nil
